import Mathlib

set_option maxHeartbeats 1000000

/-! Shallow embedding of the spatial-averaging helpers in
`climate_data_science_functions.py`.  A Grid is a latitude/longitude
indexed field of missing-capable values: missing (IEEE NaN in the source)
is modelled as `none`, and arithmetic on present values is exact rational
arithmetic.  The latitude axis is shared between a field and its weights,
as the source assumes (it reads `weights.lat` and `da.lat` of aligned
arrays). -/

/-- Multiplication on missing-capable values: a missing operand makes the
result missing, as NaN does in the source. -/
def omul : Option ℚ → Option ℚ → Option ℚ
  | some a, some b => some (a * b)
  | _, _ => none

/-- Division on missing-capable values.  Division by zero yields a missing
result; in the source 0/0 is NaN, and a nonzero numerator over zero (an
infinity) does not arise for the nonnegative weights this model is used
with. -/
def odiv : Option ℚ → Option ℚ → Option ℚ
  | some a, some b => if b = 0 then none else some (a / b)
  | _, _ => none

/-- All present (non-missing) cell values of a 2-D field, in row-major
order. -/
def cells {α : Type} {n m : ℕ} (f : Fin n → Fin m → Option α) : List α :=
  (List.finRange n).flatMap fun i => (List.finRange m).filterMap fun j => f i j

/-- Missing-value-aware mean over both axes of a 2-D field (xarray
`mean(dim=[lat,lon])` with its default skipna behaviour): the sum of the
present values over their count, or missing when no value is present. -/
def nanmean {α : Type} [Field α] {n m : ℕ} (f : Fin n → Fin m → Option α) : Option α :=
  if (cells f).length = 0 then none
  else some ((cells f).sum / ((cells f).length : α))

/-- Line 192 of the source: `weights.where((weights.lat>=lat_bnds[0]) &
(weights.lat<lat_bnds[1]))` — weights of cells outside the lower-inclusive,
upper-exclusive latitude band become missing. -/
def restrictWeights {n m : ℕ} (lat : Fin n → ℚ) (w : Fin n → Fin m → Option ℚ)
    (lo hi : ℚ) : Fin n → Fin m → Option ℚ :=
  fun i j => if lo ≤ lat i ∧ lat i < hi then w i j else none

/-- Line 193 of the source: `weights / weights.mean(dim=['lon','lat'])` —
every restricted weight divided by the skipna mean of the restricted
weights. -/
def renormWeights {n m : ℕ} (lat : Fin n → ℚ) (w : Fin n → Fin m → Option ℚ)
    (lo hi : ℚ) : Fin n → Fin m → Option ℚ :=
  fun i j =>
    odiv (restrictWeights lat w lo hi i j) (nanmean (restrictWeights lat w lo hi))

/-- Lines 191-193 of the source: the weights actually used by the final
mean — renormalized exactly when `lat_bnds` differs from the default
`[-90,90]`. -/
def effectiveWeights {n m : ℕ} (lat : Fin n → ℚ) (w : Fin n → Fin m → Option ℚ)
    (lo hi : ℚ) : Fin n → Fin m → Option ℚ :=
  if lo = -90 ∧ hi = 90 then w else renormWeights lat w lo hi

/-- Lines 195-196 of the source: `(da * weights).where(weights != 0)`
followed by `.where((da.lat>=lat_bnds[0]) & (da.lat<lat_bnds[1]))`.
Note that a missing (NaN) weight passes the `weights != 0` test, as in
numpy, but the product is missing anyway. -/
def maskedProduct {n m : ℕ} (lat : Fin n → ℚ) (da w1 : Fin n → Fin m → Option ℚ)
    (lo hi : ℚ) : Fin n → Fin m → Option ℚ :=
  fun i j =>
    let weighted := if w1 i j ≠ some 0 then omul (da i j) (w1 i j) else none
    if lo ≤ lat i ∧ lat i < hi then weighted else none

/-- The source function `weighted_average(da, weights, lat_bnds)` on a 2-D
grid, with `lat_bnds = [lo, hi]`. -/
def weighted_average {n m : ℕ} (lat : Fin n → ℚ) (da w : Fin n → Fin m → Option ℚ)
    (lo hi : ℚ) : Option ℚ :=
  nanmean (maskedProduct lat da (effectiveWeights lat w lo hi) lo hi)

/-- All present values of a 1-D field, used by the latitude/longitude
means of `coslat_area_avg`. -/
def cells1 {α : Type} {n : ℕ} (g : Fin n → Option α) : List α :=
  (List.finRange n).filterMap g

/-- Missing-value-aware mean over one axis (xarray `mean(dim=...)` with
its default skipna behaviour). -/
def nanmean1 {α : Type} [Field α] {n : ℕ} (g : Fin n → Option α) : Option α :=
  if (cells1 g).length = 0 then none
  else some ((cells1 g).sum / ((cells1 g).length : α))

/-- The source function `coslat_area_avg(da)`:
`(da.mean(dim='lon')*np.cos(np.deg2rad(lat))).mean(dim='lat')`, with the
zonal mean, the cosine factor and the meridional mean taken in exact real
arithmetic. -/
noncomputable def coslat_area_avg {n m : ℕ} (lat : Fin n → ℚ)
    (da : Fin n → Fin m → Option ℚ) : Option ℝ :=
  nanmean1 fun i =>
    ((nanmean1 fun j => (da i j).map fun q => (q : ℝ)).map
      fun z => z * Real.cos ((lat i : ℝ) * Real.pi / 180))

/-- `np.nanmedian`: the middle of the sorted present values, or the mean
of the two middle ones for an even count; missing when no value is
present. -/
def nanmedian (l : List (Option ℚ)) : Option ℚ :=
  let v := List.insertionSort (· ≤ ·) (l.filterMap id)
  if v.length = 0 then none
  else if v.length % 2 = 1 then some (v.getD (v.length / 2) 0)
  else some ((v.getD (v.length / 2 - 1) 0 + v.getD (v.length / 2) 0) / 2)

/-- The square of `np.nanstd` (population variance, `ddof=0`) over the
present values; missing when no value is present. -/
def nanvar (l : List (Option ℚ)) : Option ℚ :=
  let v := l.filterMap id
  if v.length = 0 then none
  else some ((v.map fun x => (x - v.sum / (v.length : ℚ)) ^ 2).sum / (v.length : ℚ))

/-- Line 163 of the source:
`lim = np.nanmedian(abs(flattened))+3*np.nanstd(flattened)`; missing when
the field has no present value (NaN in the source). -/
noncomputable def cf_lim (l : List (Option ℚ)) : Option ℝ :=
  match nanmedian (l.map (Option.map fun x => |x|)), nanvar l with
  | some md, some va => some ((md : ℝ) + 3 * Real.sqrt (va : ℝ))
  | _, _ => none

/-- `np.linspace(a, b, num)`: `num` evenly spaced values from `a` to `b`
inclusive. -/
noncomputable def linspace (a b : ℝ) (num : ℕ) : List ℝ :=
  if num ≤ 1 then (List.range num).map fun _ => a
  else (List.range num).map fun (i : ℕ) => a + (i : ℝ) * ((b - a) / ((num : ℝ) - 1))

/-- The source function `symmetric_cf_levels(da, nlevels)` applied to the
flattened field: `np.linspace(-lim, lim, nlevels)`.  When the limit is
missing (all-missing field) every level is missing, as NaN propagates
through `linspace` in the source. -/
noncomputable def symmetric_cf_levels (da : List (Option ℚ)) (nlevels : ℕ) :
    List (Option ℝ) :=
  match cf_lim da with
  | some lim => (linspace (-lim) lim nlevels).map some
  | none => List.replicate nlevels none

/-- Strict order on missing-capable reals; any comparison with a missing
value is false, as for NaN. -/
def oltR : Option ℝ → Option ℝ → Prop
  | some x, some y => x < y
  | _, _ => False

/-! ### Helper lemmas about the missing-value-aware operations -/

theorem omul_none_left (b : Option ℚ) : omul none b = none := by
  cases b <;> rfl

theorem omul_none_right (a : Option ℚ) : omul a none = none := by
  cases a <;> rfl

theorem odiv_none_left (b : Option ℚ) : odiv none b = none := by
  cases b <;> rfl

theorem odiv_none_right (a : Option ℚ) : odiv a none = none := by
  cases a <;> rfl

theorem odiv_some_zero (a : Option ℚ) : odiv a (some 0) = none := by
  cases a <;> simp [odiv]

theorem odiv_some_of_ne (v : Option ℚ) (mq : ℚ) (h : mq ≠ 0) :
    odiv v (some mq) = v.map fun x => x / mq := by
  cases v <;> simp [odiv, h]

theorem mem_cells {α : Type} {n m : ℕ} (f : Fin n → Fin m → Option α) (x : α) :
    x ∈ cells f ↔ ∃ i j, f i j = some x := by
  simp [cells, List.mem_flatMap, List.mem_filterMap, List.mem_finRange]

theorem cells_of_all_none {α : Type} {n m : ℕ} (f : Fin n → Fin m → Option α)
    (h : ∀ i j, f i j = none) : cells f = [] := by
  rw [List.eq_nil_iff_forall_not_mem]
  intro x hx
  obtain ⟨i, j, hij⟩ := (mem_cells f x).mp hx
  rw [h i j] at hij
  exact Option.noConfusion hij

theorem nanmean_of_all_none {α : Type} [Field α] {n m : ℕ}
    (f : Fin n → Fin m → Option α) (h : ∀ i j, f i j = none) :
    nanmean f = none := by
  unfold nanmean
  rw [cells_of_all_none f h]
  simp

theorem filterMap_omap {α β γ : Type} (f : β → Option α) (g : α → γ) (l : List β) :
    l.filterMap (fun b => (f b).map g) = (l.filterMap f).map g := by
  induction l with
  | nil => simp
  | cons b t ih => cases h : f b <;> simp [List.filterMap_cons, h, ih]

theorem flatMap_map_comm {α β γ : Type} (F : β → List α) (g : α → γ) (l : List β) :
    (l.flatMap fun b => (F b).map g) = (l.flatMap F).map g := by
  induction l with
  | nil => simp
  | cons b t ih => simp [List.flatMap_cons, ih]

theorem cells_map {α β : Type} {n m : ℕ} (f : Fin n → Fin m → Option α) (g : α → β) :
    cells (fun i j => (f i j).map g) = (cells f).map g := by
  calc cells (fun i j => (f i j).map g)
      = (List.finRange n).flatMap
          (fun i => ((List.finRange m).filterMap fun j => f i j).map g) := by
        simp only [cells]
        congr 1
        funext i
        rw [filterMap_omap]
    _ = (cells f).map g := flatMap_map_comm _ g _

theorem sum_map_mul {α : Type} [Field α] (a : α) (l : List α) :
    (l.map fun x => a * x).sum = a * l.sum := by
  induction l with
  | nil => simp
  | cons b t ih => simp [ih, mul_add]

theorem nanmean_map_mul_left {α : Type} [Field α] {n m : ℕ}
    (f : Fin n → Fin m → Option α) (a : α) :
    nanmean (fun i j => (f i j).map fun x => a * x) = (nanmean f).map fun x => a * x := by
  unfold nanmean
  rw [cells_map]
  by_cases h : (cells f).length = 0
  · simp [List.length_map, h]
  · simp only [List.length_map, h, if_false, reduceIte]
    rw [sum_map_mul, mul_div_assoc]
    rfl

theorem nanmean_map_div_eq_one {α : Type} [Field α] {n m : ℕ}
    (g : Fin n → Fin m → Option α) (mq : α) (hm : nanmean g = some mq) (h0 : mq ≠ 0) :
    nanmean (fun i j => (g i j).map fun x => x / mq) = some 1 := by
  have hfun : (fun x : α => x / mq) = fun x => mq⁻¹ * x := by
    funext x
    rw [div_eq_mul_inv, mul_comm]
  rw [hfun, nanmean_map_mul_left, hm]
  simp [inv_mul_cancel₀ h0]

/-! ### Claims -/

/-- C1 counterexample: with band `[0,20]`, setting the weight of the
second cell of a two-cell grid (latitudes 0 and 10, all-ones field) to
zero gives 2, while removing that cell entirely and averaging over the
complement (the one-cell grid) gives 1: the renormalization mean of line
193 still counts the zero-weight cell in its denominator. -/
theorem weighted_average_zero_vs_removed_cex :
    weighted_average (fun i : Fin 2 => if i.val = 0 then (0 : ℚ) else 10)
        (fun (_ : Fin 2) (_ : Fin 1) => some 1)
        (fun i _ => if i.val = 0 then some 2 else some 0) 0 20 = some 2
    ∧ weighted_average (fun _ : Fin 1 => (0 : ℚ)) (fun (_ : Fin 1) (_ : Fin 1) => some 1)
        (fun _ _ => some 2) 0 20 = some 1
    ∧ (some (2 : ℚ)) ≠ some 1 := by
  refine ⟨?_, ?_, by norm_num⟩
  · have hw : restrictWeights (fun i : Fin 2 => if i.val = 0 then (0 : ℚ) else 10)
        (fun (i : Fin 2) (_ : Fin 1) => if i.val = 0 then some 2 else some 0) 0 20
        = (fun i _ => if i.val = 0 then some 2 else some 0) := by
      funext i j
      fin_cases i <;> norm_num [restrictWeights]
    have hm : nanmean (fun (i : Fin 2) (_ : Fin 1) => if i.val = 0 then some (2 : ℚ) else some 0)
        = some 1 := by
      norm_num [nanmean, cells, List.finRange_succ, List.filterMap_cons, List.flatMap_cons]
    have heff : effectiveWeights (fun i : Fin 2 => if i.val = 0 then (0 : ℚ) else 10)
        (fun (i : Fin 2) (_ : Fin 1) => if i.val = 0 then some 2 else some 0) 0 20
        = (fun i _ => if i.val = 0 then some 2 else some 0) := by
      funext i j
      rw [effectiveWeights, if_neg (by norm_num)]
      show odiv _ _ = _
      rw [hw, hm]
      fin_cases i <;> norm_num [odiv]
    norm_num [weighted_average, heff, maskedProduct, omul, nanmean, cells,
      List.finRange_succ, List.filterMap_cons, List.flatMap_cons]
  · have hw : restrictWeights (fun _ : Fin 1 => (0 : ℚ))
        (fun (_ : Fin 1) (_ : Fin 1) => some 2) 0 20 = (fun _ _ => some 2) := by
      funext i j
      norm_num [restrictWeights]
    have hm : nanmean (fun (_ : Fin 1) (_ : Fin 1) => some (2 : ℚ)) = some 2 := by
      norm_num [nanmean, cells, List.finRange_succ, List.filterMap_cons, List.flatMap_cons]
    have heff : effectiveWeights (fun _ : Fin 1 => (0 : ℚ))
        (fun (_ : Fin 1) (_ : Fin 1) => some 2) 0 20 = (fun _ _ => some 1) := by
      funext i j
      rw [effectiveWeights, if_neg (by norm_num)]
      show odiv _ _ = _
      rw [hw, hm]
      norm_num [odiv]
    norm_num [weighted_average, heff, maskedProduct, omul, nanmean, cells,
      List.finRange_succ, List.filterMap_cons, List.flatMap_cons]

/-- C1 (amended): with the default full-globe band no renormalization
occurs, and then setting any subset `S` of the weights to zero yields the
same result as removing those cells entirely: the mean of the original
masked products over the complement of `S`. -/
theorem weighted_average_zero_weight_default {n m : ℕ} (lat : Fin n → ℚ)
    (da w : Fin n → Fin m → Option ℚ) (S : Fin n → Fin m → Bool) :
    weighted_average lat da (fun i j => if S i j then some 0 else w i j) (-90) 90
      = nanmean (fun i j => if S i j then none
          else maskedProduct lat da w (-90) 90 i j) := by
  unfold weighted_average
  rw [show effectiveWeights lat (fun i j => if S i j then some 0 else w i j) (-90) 90
      = fun i j => if S i j then some 0 else w i j by simp [effectiveWeights]]
  congr 1
  funext i j
  cases hS : S i j with
  | true => simp [maskedProduct, hS]
  | false => simp [maskedProduct, hS]

/-- C5: a band with `lo ≥ hi`, and more generally any input whose in-band
weights are all zero or missing, yields a missing result for the whole
average rather than an error: the function is total there. -/
theorem weighted_average_empty_band_missing {n m : ℕ} (lat : Fin n → ℚ)
    (da w : Fin n → Fin m → Option ℚ) (lo hi : ℚ)
    (h : hi ≤ lo ∨ ∀ i j, lo ≤ lat i ∧ lat i < hi → (w i j = some 0 ∨ w i j = none)) :
    weighted_average lat da w lo hi = none := by
  have hz : ∀ i j, lo ≤ lat i ∧ lat i < hi → (w i j = some 0 ∨ w i j = none) := by
    rcases h with hle | hz
    · intro i j hb
      exact absurd (lt_of_lt_of_le hb.2 (le_trans hle hb.1)) (lt_irrefl _)
    · exact hz
  unfold weighted_average
  apply nanmean_of_all_none
  intro i j
  by_cases hb : lo ≤ lat i ∧ lat i < hi
  case neg => simp [maskedProduct, hb]
  case pos =>
    have heff : effectiveWeights lat w lo hi i j = some 0
        ∨ effectiveWeights lat w lo hi i j = none := by
      unfold effectiveWeights
      by_cases hdef : lo = -90 ∧ hi = 90
      · rw [if_pos hdef]
        exact hz i j hb
      · rw [if_neg hdef]
        right
        show odiv (restrictWeights lat w lo hi i j) (nanmean (restrictWeights lat w lo hi)) = none
        have hres : ∀ x ∈ cells (restrictWeights lat w lo hi), x = 0 := by
          intro x hx
          obtain ⟨a, b, hab⟩ := (mem_cells _ x).mp hx
          unfold restrictWeights at hab
          by_cases hb2 : lo ≤ lat a ∧ lat a < hi
          · rw [if_pos hb2] at hab
            rcases hz a b hb2 with h0 | hnone
            · rw [h0] at hab
              injection hab with hv
              exact hv.symm
            · rw [hnone] at hab
              exact Option.noConfusion hab
          · rw [if_neg hb2] at hab
            exact Option.noConfusion hab
        by_cases hlen : (cells (restrictWeights lat w lo hi)).length = 0
        · have hnm : nanmean (restrictWeights lat w lo hi) = none := by
            unfold nanmean
            rw [if_pos hlen]
          rw [hnm, odiv_none_right]
        · have hsum : (cells (restrictWeights lat w lo hi)).sum = 0 := List.sum_eq_zero hres
          have hnm : nanmean (restrictWeights lat w lo hi) = some 0 := by
            unfold nanmean
            rw [if_neg hlen, hsum, zero_div]
          rw [hnm, odiv_some_zero]
    rcases heff with h0 | hnone
    · simp [maskedProduct, h0]
    · simp [maskedProduct, hnone, omul_none_right]

/-- C5 witness: the spec's example band `[80, 10]` on a concrete one-cell
grid yields a missing result. -/
theorem weighted_average_empty_band_missing_witness :
    (10 : ℚ) ≤ 80
    ∧ weighted_average (fun _ : Fin 1 => (0 : ℚ)) (fun (_ : Fin 1) (_ : Fin 1) => some 3)
        (fun _ _ => some 5) 80 10 = none :=
  ⟨by norm_num,
   weighted_average_empty_band_missing _ _ _ 80 10 (Or.inl (by norm_num))⟩

/-- C6: replacing a cell's field value by missing gives exactly the mean
of the original masked products with that cell excluded: a missing value
contributes to neither the numerator nor the denominator. -/
theorem weighted_average_missing_excluded {n m : ℕ} (lat : Fin n → ℚ)
    (da w : Fin n → Fin m → Option ℚ) (lo hi : ℚ) (a : Fin n) (b : Fin m) :
    weighted_average lat (fun i j => if i = a ∧ j = b then none else da i j) w lo hi
      = nanmean (fun i j => if i = a ∧ j = b then none
          else maskedProduct lat da (effectiveWeights lat w lo hi) lo hi i j) := by
  unfold weighted_average
  congr 1
  funext i j
  by_cases hab : i = a ∧ j = b
  · simp [maskedProduct, hab, omul_none_left]
  · simp [maskedProduct, hab]

/-- C8: with the default band the strict `lat < 90` mask of line 196 still
applies, so a row at latitude exactly 90 is masked out and the result does
not depend on the field values there. -/
theorem weighted_average_lat90_excluded {n m : ℕ} (lat : Fin n → ℚ)
    (da da2 w : Fin n → Fin m → Option ℚ) (a : Fin n) (h90 : lat a = 90)
    (hoff : ∀ i j, i ≠ a → da i j = da2 i j) :
    (∀ j, maskedProduct lat da (effectiveWeights lat w (-90) 90) (-90) 90 a j = none)
    ∧ weighted_average lat da w (-90) 90 = weighted_average lat da2 w (-90) 90 := by
  constructor
  · intro j
    norm_num [maskedProduct, h90]
  · unfold weighted_average
    congr 1
    funext i j
    by_cases hia : i = a
    · subst hia
      norm_num [maskedProduct, h90]
    · simp [maskedProduct, hoff i j hia]

/-- C8 witness: on a two-row grid with latitudes 0 and 90, changing the
value in the latitude-90 row (5 versus 7) does not change the result. -/
theorem weighted_average_lat90_excluded_witness :
    (fun i : Fin 2 => if i.val = 0 then (0 : ℚ) else 90) 1 = 90
    ∧ weighted_average (fun i : Fin 2 => if i.val = 0 then (0 : ℚ) else 90)
        (fun (i : Fin 2) (_ : Fin 1) => if i.val = 0 then some 3 else some 5)
        (fun _ _ => some 1) (-90) 90
      = weighted_average (fun i : Fin 2 => if i.val = 0 then (0 : ℚ) else 90)
        (fun (i : Fin 2) (_ : Fin 1) => if i.val = 0 then some 3 else some 7)
        (fun _ _ => some 1) (-90) 90 := by
  refine ⟨by norm_num, ?_⟩
  refine (weighted_average_lat90_excluded _ _ _ (fun _ _ => some 1) 1 (by norm_num) ?_).2
  intro i j hia
  fin_cases i
  · norm_num
  · exact absurd rfl hia

/-- C9: with the default band no renormalization happens, so scaling
every weight by a positive constant `c` scales the result by `c`: the
average is homogeneous of degree one in the weights. -/
theorem weighted_average_weight_scaling {n m : ℕ} (lat : Fin n → ℚ)
    (da w : Fin n → Fin m → Option ℚ) (c : ℚ) (hc : 0 < c) :
    weighted_average lat da (fun i j => (w i j).map fun x => c * x) (-90) 90
      = (weighted_average lat da w (-90) 90).map fun x => c * x := by
  unfold weighted_average
  rw [show effectiveWeights lat (fun i j => (w i j).map fun x => c * x) (-90) 90
      = fun i j => (w i j).map fun x => c * x by simp [effectiveWeights]]
  rw [show effectiveWeights lat w (-90) 90 = w by simp [effectiveWeights]]
  have hpt : ∀ i j, maskedProduct lat da (fun i j => (w i j).map fun x => c * x) (-90) 90 i j
      = (maskedProduct lat da w (-90) 90 i j).map fun x => c * x := by
    intro i j
    by_cases hb : -90 ≤ lat i ∧ lat i < 90
    case neg => simp [maskedProduct, hb]
    case pos =>
      cases hw : w i j with
      | none => simp [maskedProduct, hb, hw, omul_none_right]
      | some x =>
        by_cases hx : x = 0
        · subst hx
          simp [maskedProduct, hb, hw, mul_zero]
        · have hcx : c * x ≠ 0 := mul_ne_zero hc.ne' hx
          cases hda : da i j with
          | none => simp [maskedProduct, hb, hw, hda, hx, hcx, omul]
          | some v =>
            simp [maskedProduct, hb, hw, hda, hx, hcx, omul]
            ring
  rw [show maskedProduct lat da (fun i j => (w i j).map fun x => c * x) (-90) 90
      = fun i j => (maskedProduct lat da w (-90) 90 i j).map fun x => c * x
      from funext fun i => funext fun j => hpt i j]
  exact nanmean_map_mul_left _ c

/-- C9 witness: with the default band, doubling a uniform weight of 4
doubles the result for a one-cell grid with value 3. -/
theorem weighted_average_weight_scaling_witness :
    (0 : ℚ) < 2
    ∧ weighted_average (fun _ : Fin 1 => (0 : ℚ)) (fun (_ : Fin 1) (_ : Fin 1) => some 3)
        (fun i j => ((fun (_ : Fin 1) (_ : Fin 1) => (some 4 : Option ℚ)) i j).map fun x => 2 * x)
        (-90) 90
      = (weighted_average (fun _ : Fin 1 => (0 : ℚ)) (fun (_ : Fin 1) (_ : Fin 1) => some 3)
          (fun _ _ => some 4) (-90) 90).map fun x => 2 * x :=
  ⟨by norm_num, weighted_average_weight_scaling _ _ _ 2 (by norm_num)⟩

/-- C2 counterexample: with band `[0,20]` and all in-band weights zero,
the renormalization divides zero by zero: every renormalized weight is
missing and the weights do not average to 1. -/
theorem weighted_average_band_renorm_cex :
    nanmean (renormWeights (fun _ : Fin 1 => (0 : ℚ)) (fun (_ : Fin 1) (_ : Fin 1) => some 0) 0 20)
      = none
    ∧ (none : Option ℚ) ≠ some 1 := by
  refine ⟨?_, by simp⟩
  have hres : restrictWeights (fun _ : Fin 1 => (0 : ℚ)) (fun (_ : Fin 1) (_ : Fin 1) => some 0) 0 20
      = fun _ _ => some 0 := by
    funext i j
    norm_num [restrictWeights]
  have hm : nanmean (fun (_ : Fin 1) (_ : Fin 1) => some (0 : ℚ)) = some 0 := by
    norm_num [nanmean, cells, List.finRange_succ, List.filterMap_cons, List.flatMap_cons]
  apply nanmean_of_all_none
  intro i j
  show odiv (restrictWeights _ _ 0 20 i j) (nanmean (restrictWeights _ _ 0 20)) = none
  rw [hres, hm, odiv_some_zero]

/-- C2 (amended): for a non-default band, the weights used are the
band-restricted weights divided by their skipna mean: out-of-band cells
are missing (they take part in no mean), each present in-band weight `c`
becomes `c / mean`, and — provided the restricted mean exists and is
nonzero — the renormalized weights average to 1 within the band. -/
theorem weighted_average_band_renorm {n m : ℕ} (lat : Fin n → ℚ)
    (w : Fin n → Fin m → Option ℚ) (lo hi mq : ℚ)
    (hne : ¬(lo = -90 ∧ hi = 90))
    (hm : nanmean (restrictWeights lat w lo hi) = some mq) (h0 : mq ≠ 0) :
    (∀ da, weighted_average lat da w lo hi
        = nanmean (maskedProduct lat da (renormWeights lat w lo hi) lo hi))
    ∧ (∀ i j, ¬(lo ≤ lat i ∧ lat i < hi) → renormWeights lat w lo hi i j = none)
    ∧ (∀ i j c, lo ≤ lat i ∧ lat i < hi → w i j = some c →
        renormWeights lat w lo hi i j = some (c / mq))
    ∧ nanmean (renormWeights lat w lo hi) = some 1 := by
  refine ⟨?_, ?_, ?_, ?_⟩
  · intro da
    unfold weighted_average effectiveWeights
    rw [if_neg hne]
  · intro i j hb
    show odiv (restrictWeights lat w lo hi i j) (nanmean (restrictWeights lat w lo hi)) = none
    rw [show restrictWeights lat w lo hi i j = none from by simp [restrictWeights, hb],
      odiv_none_left]
  · intro i j c hb hwc
    show odiv (restrictWeights lat w lo hi i j) (nanmean (restrictWeights lat w lo hi))
        = some (c / mq)
    rw [show restrictWeights lat w lo hi i j = some c from by simp [restrictWeights, hb, hwc],
      hm, odiv_some_of_ne _ _ h0]
    rfl
  · have hrw : renormWeights lat w lo hi
        = fun i j => (restrictWeights lat w lo hi i j).map fun x => x / mq := by
      funext i j
      show odiv (restrictWeights lat w lo hi i j) (nanmean (restrictWeights lat w lo hi)) = _
      rw [hm, odiv_some_of_ne _ _ h0]
    rw [hrw]
    exact nanmean_map_div_eq_one _ mq hm h0

/-- C2 witness: band `[0,20]` on a one-cell grid with weight 6: the
restricted mean is 6, the renormalized weight is 1, and the renormalized
weights average to 1. -/
theorem weighted_average_band_renorm_witness :
    ¬((0 : ℚ) = -90 ∧ (20 : ℚ) = 90)
    ∧ nanmean (restrictWeights (fun _ : Fin 1 => (0 : ℚ)) (fun (_ : Fin 1) (_ : Fin 1) => some 6) 0 20)
        = some 6
    ∧ (6 : ℚ) ≠ 0
    ∧ nanmean (renormWeights (fun _ : Fin 1 => (0 : ℚ)) (fun (_ : Fin 1) (_ : Fin 1) => some 6) 0 20)
        = some 1 := by
  have hres : restrictWeights (fun _ : Fin 1 => (0 : ℚ)) (fun (_ : Fin 1) (_ : Fin 1) => some 6) 0 20
      = fun _ _ => some 6 := by
    funext i j
    norm_num [restrictWeights]
  have hm : nanmean (restrictWeights (fun _ : Fin 1 => (0 : ℚ))
      (fun (_ : Fin 1) (_ : Fin 1) => some 6) 0 20) = some 6 := by
    rw [hres]
    norm_num [nanmean, cells, List.finRange_succ, List.filterMap_cons, List.flatMap_cons]
  exact ⟨by norm_num, hm, by norm_num,
    (weighted_average_band_renorm _ _ 0 20 6 (by norm_num) hm (by norm_num)).2.2.2⟩

/-- C3 counterexample: on a one-cell grid with uniform weight 2 and field
value 3, `weighted_average` with the default band returns 6, not the
unweighted mean 3: no renormalization happens for the default band. -/
theorem weighted_average_uniform_weights_cex :
    weighted_average (fun _ : Fin 1 => (0 : ℚ)) (fun (_ : Fin 1) (_ : Fin 1) => some 3)
        (fun _ _ => some 2) (-90) 90 = some 6
    ∧ nanmean (fun (_ : Fin 1) (_ : Fin 1) => some (3 : ℚ)) = some 3
    ∧ (some (6 : ℚ)) ≠ some 3 := by
  refine ⟨?_, ?_, by norm_num⟩
  · norm_num [weighted_average, effectiveWeights, maskedProduct, omul, nanmean, cells,
      List.finRange_succ, List.filterMap_cons, List.flatMap_cons]
  · norm_num [nanmean, cells, List.finRange_succ, List.filterMap_cons, List.flatMap_cons]

/-- C3 (amended): with uniform present weight `c ≠ 0`, the default band,
and all latitudes inside `[-90, 90)`, the result is `c` times the
unweighted skipna mean of the field — the unweighted mean itself only
when `c = 1`. -/
theorem weighted_average_uniform_weights {n m : ℕ} (lat : Fin n → ℚ)
    (da : Fin n → Fin m → Option ℚ) (c : ℚ) (hc : c ≠ 0)
    (hlat : ∀ i, -90 ≤ lat i ∧ lat i < 90) :
    weighted_average lat da (fun _ _ => some c) (-90) 90
      = (nanmean da).map fun x => c * x := by
  unfold weighted_average
  rw [show effectiveWeights lat (fun _ _ => some c) (-90) 90 = fun _ _ => some c
      by simp [effectiveWeights]]
  have hpt : ∀ i j, maskedProduct lat da (fun _ _ => some c) (-90) 90 i j
      = (da i j).map fun x => c * x := by
    intro i j
    have hb := hlat i
    cases hda : da i j with
    | none => simp [maskedProduct, hb, hc, hda, omul]
    | some v => simp [maskedProduct, hb, hc, hda, omul, mul_comm]
  rw [show maskedProduct lat da (fun _ _ => some c) (-90) 90
      = fun i j => (da i j).map fun x => c * x
      from funext fun i => funext fun j => hpt i j]
  exact nanmean_map_mul_left da c

/-- C3 witness: uniform weight 2 on a one-cell grid with value 3 gives
twice the unweighted mean. -/
theorem weighted_average_uniform_weights_witness :
    (2 : ℚ) ≠ 0
    ∧ (∀ i : Fin 1, (-90 : ℚ) ≤ (fun _ : Fin 1 => (0 : ℚ)) i ∧ (fun _ : Fin 1 => (0 : ℚ)) i < 90)
    ∧ weighted_average (fun _ : Fin 1 => (0 : ℚ)) (fun (_ : Fin 1) (_ : Fin 1) => some 3)
        (fun _ _ => some 2) (-90) 90
      = (nanmean (fun (_ : Fin 1) (_ : Fin 1) => some (3 : ℚ))).map fun x => 2 * x :=
  ⟨by norm_num, fun _ => by norm_num,
   weighted_average_uniform_weights _ _ 2 (by norm_num) (fun _ => by norm_num)⟩

/-- C4 counterexample: the default full-globe band is a nonempty band with
a nonzero weight pattern, yet an all-ones field with uniform weight 2
averages to 2, not 1: no renormalization happens for the default band. -/
theorem weighted_average_ones_band_cex :
    weighted_average (fun _ : Fin 1 => (0 : ℚ)) (fun (_ : Fin 1) (_ : Fin 1) => some 1)
        (fun _ _ => some 2) (-90) 90 = some 2
    ∧ (some (2 : ℚ)) ≠ some 1 := by
  refine ⟨?_, by norm_num⟩
  norm_num [weighted_average, effectiveWeights, maskedProduct, omul, nanmean, cells,
    List.finRange_succ, List.filterMap_cons, List.flatMap_cons]

/-- C4 (amended): for a band other than the full-globe default, an
all-ones field averages to exactly 1 whenever every in-band weight is
present and nonzero and the restricted weights have a nonzero mean. -/
theorem weighted_average_ones_band {n m : ℕ} (lat : Fin n → ℚ)
    (w : Fin n → Fin m → Option ℚ) (lo hi mq : ℚ)
    (hne : ¬(lo = -90 ∧ hi = 90))
    (hall : ∀ i j, lo ≤ lat i ∧ lat i < hi → ∃ c, w i j = some c ∧ c ≠ 0)
    (hm : nanmean (restrictWeights lat w lo hi) = some mq) (h0 : mq ≠ 0) :
    weighted_average lat (fun _ _ => some 1) w lo hi = some 1 := by
  unfold weighted_average
  rw [show effectiveWeights lat w lo hi = renormWeights lat w lo hi
      from if_neg hne]
  have hrw : renormWeights lat w lo hi
      = fun i j => (restrictWeights lat w lo hi i j).map fun x => x / mq := by
    funext i j
    show odiv (restrictWeights lat w lo hi i j) (nanmean (restrictWeights lat w lo hi)) = _
    rw [hm, odiv_some_of_ne _ _ h0]
  have hpt : ∀ i j, maskedProduct lat (fun _ _ => some 1) (renormWeights lat w lo hi) lo hi i j
      = (restrictWeights lat w lo hi i j).map fun x => x / mq := by
    intro i j
    by_cases hb : lo ≤ lat i ∧ lat i < hi
    · obtain ⟨c, hwc, hc⟩ := hall i j hb
      have hres : restrictWeights lat w lo hi i j = some c := by
        simp [restrictWeights, hb, hwc]
      have hdiv : c / mq ≠ 0 := div_ne_zero hc h0
      simp [maskedProduct, hrw, hres, hb, hdiv, omul]
    · have hres : restrictWeights lat w lo hi i j = none := by
        simp [restrictWeights, hb]
      simp [maskedProduct, hrw, hres, hb]
  rw [show maskedProduct lat (fun _ _ => some 1) (renormWeights lat w lo hi) lo hi
      = fun i j => (restrictWeights lat w lo hi i j).map fun x => x / mq
      from funext fun i => funext fun j => hpt i j]
  exact nanmean_map_div_eq_one _ mq hm h0

/-- C4 witness: band `[0,20]` on a one-cell all-ones grid with weight 2
averages to exactly 1. -/
theorem weighted_average_ones_band_witness :
    ¬((0 : ℚ) = -90 ∧ (20 : ℚ) = 90)
    ∧ weighted_average (fun _ : Fin 1 => (0 : ℚ)) (fun (_ : Fin 1) (_ : Fin 1) => some 1)
        (fun _ _ => some 2) 0 20 = some 1 := by
  refine ⟨by norm_num, ?_⟩
  have hres : restrictWeights (fun _ : Fin 1 => (0 : ℚ)) (fun (_ : Fin 1) (_ : Fin 1) => some 2) 0 20
      = fun _ _ => some 2 := by
    funext i j
    norm_num [restrictWeights]
  have hm : nanmean (restrictWeights (fun _ : Fin 1 => (0 : ℚ))
      (fun (_ : Fin 1) (_ : Fin 1) => some 2) 0 20) = some 2 := by
    rw [hres]
    norm_num [nanmean, cells, List.finRange_succ, List.filterMap_cons, List.flatMap_cons]
  exact weighted_average_ones_band _ _ 0 20 2 (by norm_num)
    (fun i j hb => ⟨2, rfl, by norm_num⟩) hm (by norm_num)

/-- C7 counterexample: on the all-zero one-cell field the limit is
`median(|0|) + 3*std = 0`, so all five levels are 0 and the levels are
not strictly increasing. -/
theorem symmetric_cf_levels_flat_cex :
    symmetric_cf_levels [some 0] 5 = [some 0, some 0, some 0, some 0, some 0]
    ∧ ¬ List.Chain' oltR (symmetric_cf_levels [some 0] 5) := by
  have h1 : nanmedian ([some (0 : ℚ)].map (Option.map fun x => |x|)) = some 0 := by
    norm_num [nanmedian, List.insertionSort, List.orderedInsert, List.filterMap_cons]
  have h2 : nanvar [some (0 : ℚ)] = some 0 := by
    norm_num [nanvar, List.filterMap_cons]
  have hcf : cf_lim [some 0] = some 0 := by
    simp only [cf_lim, h1, h2]
    norm_num [Real.sqrt_zero]
  have hlin : linspace (-(0 : ℝ)) 0 5 = [0, 0, 0, 0, 0] := by
    rw [linspace, if_neg (by norm_num)]
    rw [show List.range 5 = [0, 1, 2, 3, 4] from rfl]
    simp only [List.map_cons, List.map_nil]
    norm_num
  have hls : symmetric_cf_levels [some 0] 5 = [some 0, some 0, some 0, some 0, some 0] := by
    simp only [symmetric_cf_levels, hcf]
    rw [hlin]
    rfl
  refine ⟨hls, ?_⟩
  rw [hls]
  simp [List.chain'_cons, oltR]

/-- C7 (amended): whenever the computed limit is present and positive,
`symmetric_cf_levels(field, 5)` is the five evenly spaced values
`-lim, -lim/2, 0, lim/2, lim`: strictly increasing, with the first equal
to the negation of the last and 0 in the middle. -/
theorem symmetric_cf_levels_five (l : List (Option ℚ)) (lim : ℝ)
    (hcf : cf_lim l = some lim) (hpos : 0 < lim) :
    symmetric_cf_levels l 5
      = [some (-lim), some (-(lim / 2)), some 0, some (lim / 2), some lim]
    ∧ List.Chain' oltR (symmetric_cf_levels l 5) := by
  have hlin : linspace (-lim) lim 5 = [-lim, -(lim / 2), 0, lim / 2, lim] := by
    rw [linspace, if_neg (by norm_num)]
    rw [show List.range 5 = [0, 1, 2, 3, 4] from rfl]
    simp only [List.map_cons, List.map_nil]
    norm_num
    refine ⟨by ring, by ring, by ring, by ring⟩
  have hls : symmetric_cf_levels l 5
      = [some (-lim), some (-(lim / 2)), some 0, some (lim / 2), some lim] := by
    simp only [symmetric_cf_levels, hcf]
    rw [hlin]
    rfl
  refine ⟨hls, ?_⟩
  rw [hls]
  simp only [List.chain'_cons, List.chain'_singleton, oltR, and_true]
  refine ⟨by linarith, by linarith, by linarith, by linarith⟩

/-- C7 witness: the constant-1 one-cell field has limit `1 + 3*0 = 1` and
yields the strictly increasing levels `-1, -1/2, 0, 1/2, 1`. -/
theorem symmetric_cf_levels_five_witness :
    cf_lim [some 1] = some 1 ∧ (0 : ℝ) < 1
    ∧ (symmetric_cf_levels [some 1] 5
        = [some (-(1 : ℝ)), some (-(1 / 2)), some 0, some (1 / 2), some 1]
      ∧ List.Chain' oltR (symmetric_cf_levels [some 1] 5)) := by
  have h1 : nanmedian ([some (1 : ℚ)].map (Option.map fun x => |x|)) = some 1 := by
    norm_num [nanmedian, List.insertionSort, List.orderedInsert, List.filterMap_cons]
  have h2 : nanvar [some (1 : ℚ)] = some 0 := by
    norm_num [nanvar, List.filterMap_cons]
  have hcf : cf_lim [some 1] = some 1 := by
    simp only [cf_lim, h1, h2]
    norm_num [Real.sqrt_zero]
  exact ⟨hcf, by norm_num, symmetric_cf_levels_five [some 1] 1 hcf (by norm_num)⟩

theorem filterMap_some_fn {α β : Type} (g : β → α) (l : List β) :
    l.filterMap (fun b => some (g b)) = l.map g := by
  induction l with
  | nil => simp
  | cons b t ih => simp [List.filterMap_cons, ih]

theorem sum_map_const {α β : Type} [Field α] (a : α) (l : List β) :
    (l.map fun _ => a).sum = (l.length : α) * a := by
  induction l with
  | nil => simp
  | cons b t ih =>
    simp only [List.map_cons, List.sum_cons, List.length_cons, ih]
    push_cast
    ring

/-- C10: on a constant field with value `c`, `coslat_area_avg` returns
`c` times the plain average of `cos(radians(lat))` over the latitude
points — it does not divide by the sum of the cosine weights, so it is
not constant-preserving in general. -/
theorem coslat_area_avg_const {n m : ℕ} (lat : Fin n → ℚ) (c : ℚ)
    (hn : 0 < n) (hm : 0 < m) :
    coslat_area_avg lat (fun (_ : Fin n) (_ : Fin m) => some c)
      = some ((c : ℝ) *
          ((((List.finRange n).map fun i => Real.cos ((lat i : ℝ) * Real.pi / 180)).sum)
            / (n : ℝ))) := by
  have hinner : (nanmean1 fun _ : Fin m => some ((c : ℚ) : ℝ)) = some ((c : ℚ) : ℝ) := by
    unfold nanmean1 cells1
    rw [filterMap_some_fn (fun _ : Fin m => ((c : ℚ) : ℝ)), sum_map_const]
    simp only [List.length_map, List.length_finRange]
    rw [if_neg hm.ne', mul_div_cancel_left₀ _ (Nat.cast_ne_zero.mpr hm.ne')]
  show nanmean1 (fun i : Fin n =>
      ((nanmean1 fun _ : Fin m => some ((c : ℚ) : ℝ)).map
        fun z => z * Real.cos ((lat i : ℝ) * Real.pi / 180))) = _
  rw [hinner]
  show nanmean1 (fun i : Fin n =>
      some (((c : ℚ) : ℝ) * Real.cos ((lat i : ℝ) * Real.pi / 180))) = _
  unfold nanmean1 cells1
  rw [filterMap_some_fn (fun i : Fin n => ((c : ℚ) : ℝ) * Real.cos ((lat i : ℝ) * Real.pi / 180))]
  simp only [List.length_map, List.length_finRange]
  rw [if_neg hn.ne']
  congr 1
  rw [show (fun i : Fin n => ((c : ℚ) : ℝ) * Real.cos ((lat i : ℝ) * Real.pi / 180))
      = (fun x => ((c : ℚ) : ℝ) * x) ∘ (fun i : Fin n => Real.cos ((lat i : ℝ) * Real.pi / 180))
      from rfl]
  rw [← List.map_map, sum_map_mul, mul_div_assoc]

/-- C10 witness: a one-point grid at the equator with constant value 5. -/
theorem coslat_area_avg_const_witness :
    (0 : ℕ) < 1
    ∧ coslat_area_avg (fun _ : Fin 1 => (0 : ℚ)) (fun (_ : Fin 1) (_ : Fin 1) => some 5)
      = some (((5 : ℚ) : ℝ) *
          ((((List.finRange 1).map fun i => Real.cos
              ((((fun _ : Fin 1 => (0 : ℚ)) i : ℚ) : ℝ) * Real.pi / 180)).sum)
            / ((1 : ℕ) : ℝ))) :=
  ⟨Nat.one_pos, coslat_area_avg_const _ 5 Nat.one_pos Nat.one_pos⟩
